import Mathlib

/-!
Verification of the auditcmd audit workflow engine.

The definitions below are shallow embeddings of the Go source of
scanoss/auditcmd: `main.go`, `filelist.go`, `export.go` and the audit
dialog / tree-state files.  Pure data is modelled by Lean structures;
the few stateful pieces (the audit dialog state, the default-branch
cache) are modelled by explicit state passing.  Time is modelled as a
`Nat` timestamp, the network as an oracle function, and file-system
write success as a boolean parameter.  Strings are handled through
their character lists so that every definition is executable by
`decide`/`rfl`.
-/

/-- One entry of a match's decision history (Go struct `AuditDecision`
with fields `Decision`, `Assessment`, `Timestamp`; the timestamp is
modelled as a `Nat`). -/
structure AuditDecision where
  decision : String
  assessment : String
  timestamp : Nat
deriving DecidableEq, Repr

/-- A license attached to a match (Go struct `License`; only the `Name`
field is consumed by the audited code paths, the other metadata fields
are omitted). -/
structure License where
  name : String
deriving DecidableEq, Repr

/-- The dynamically typed `oss_lines` JSON field (Go `interface{}`):
absent (`nil`), a string, or some non-string JSON value. -/
inductive OSSLines where
  | null : OSSLines
  | str (s : String) : OSSLines
  | other : OSSLines
deriving DecidableEq, Repr

/-- One scan finding for a file (Go struct `FileMatch`).  Only the
fields consumed by the audited code paths are modelled: `ID`, `File`,
`Purl`, `Licenses`, `OSSLines` and the decision history `AuditCmd`;
the remaining metadata fields (hashes, health, server info, ...) are
never read by the functions under verification. -/
structure FileMatch where
  id : String
  file : String
  purl : List String
  licenses : List License
  ossLines : OSSLines
  auditCmd : List AuditDecision
deriving DecidableEq, Repr

/-- The parsed scan result (Go struct `ScanResult`): a mapping from file
path to its ordered match list.  The Go `map[string][]FileMatch` is
modelled as an association list; JSON object keys are unique, but none
of the proved statements needs that assumption. -/
structure ScanResult where
  files : List (String × List FileMatch)
deriving DecidableEq, Repr

/-! ### String helpers mirroring the `strings` package

Go's string primitives are re-implemented on character lists so that
they compute by structural recursion (hence reduce under `decide` and
`rfl`).  All inputs handled by the program are ASCII. -/

/-- `strings.Contains(s, string(c))` for a one-character needle. -/
def containsChar (s : String) (c : Char) : Bool :=
  s.toList.any (fun x => x = c)

/-- `strings.HasPrefix(s, pre)`. -/
def hasPrefixStr (s pre : String) : Bool :=
  pre.toList.isPrefixOf s.toList

/-- `strings.Split(s, string(sep))` on character lists. -/
def splitCharList (sep : Char) : List Char → List (List Char)
  | [] => [[]]
  | c :: rest =>
    if c = sep then [] :: splitCharList sep rest
    else
      match splitCharList sep rest with
      | [] => [[c]]
      | g :: gs => (c :: g) :: gs

/-- `strings.Split(s, string(sep))`. -/
def splitChar (sep : Char) (s : String) : List String :=
  (splitCharList sep s.toList).map (fun l => String.mk l)

/-- ASCII whitespace test used by `trimSpace`. -/
def isSpaceChar (c : Char) : Bool :=
  c = ' ' || c = '\t' || c = '\n' || c = '\r'

/-- `strings.TrimSpace(s)` (ASCII whitespace; the program only trims
numeric line-range fragments). -/
def trimSpace (s : String) : String :=
  String.mk (((s.toList.dropWhile isSpaceChar).reverse.dropWhile isSpaceChar).reverse)

/-- `strings.ToLower(s)` (ASCII). -/
def lowerStr (s : String) : String :=
  String.mk (s.toList.map Char.toLower)

/-- `strings.Join(parts, "/")`. -/
def pathJoin : List String → String
  | [] => ""
  | [s] => s
  | s :: t :: rest => s ++ "/" ++ pathJoin (t :: rest)

/-! ### First-valid-match selection, one definition per component

Each of the three components walks a path's match list and picks the
first match whose `ID` is `"file"` or `"snippet"`.  Each loop is
translated separately from its own source location so that their
agreement (claim C2) is a theorem, not a definition. -/

/-- The match-selection loop of `performCSVExport` (`export.go`):
`for i, m := range matches { if m.ID == "file" || m.ID == "snippet" { match = &matches[i]; break } }`. -/
def firstValidMatchExport : List FileMatch → Option FileMatch
  | [] => none
  | m :: rest =>
    if m.id = "file" || m.id = "snippet" then some m
    else firstValidMatchExport rest

/-- The match-selection loop of `updateFileList` (`filelist.go`):
`for j, m := range matches { if m.ID == "file" || m.ID == "snippet" { match = &matches[j]; break } }`. -/
def firstValidMatchFileList : List FileMatch → Option FileMatch
  | [] => none
  | m :: rest =>
    if m.id = "file" || m.id = "snippet" then some m
    else firstValidMatchFileList rest

/-- The match-selection loop of `buildPURLRanking` (`main.go`):
`for _, match := range matches { if match.ID != "file" && match.ID != "snippet" { continue }; ...; break }` —
the first match that is not skipped by the `continue` is processed and
the loop breaks. -/
def firstValidMatchRanking : List FileMatch → Option FileMatch
  | [] => none
  | m :: rest =>
    if m.id ≠ "file" && m.id ≠ "snippet" then firstValidMatchRanking rest
    else some m

/-! ### AuditLedger: `saveAuditDecision` / `saveToFile` -/

/-- Result of a `saveAuditDecision` call that got past the guard:
the in-memory match after the call (the object `app.CurrentMatch`
points into `app.ScanData`), whether `saveToFile` succeeded, and
whether the `save_error` dialog was raised. -/
structure SaveOutcome where
  updatedMatch : FileMatch
  persisted : Bool
  errorShown : Bool
deriving DecidableEq, Repr

/-- `saveAuditDecision` (audit dialog file): the guard
`if app.CurrentMatch == nil || app.PendingDecision == ""` closes the
dialog without recording anything (modelled as `none`); otherwise the
entry `{PendingDecision, assessment, time.Now()}` is appended to the
current match's `AuditCmd` and `saveToFile` is invoked, whose success
is modelled by `writeOk`.  On write failure the `save_error` dialog is
shown and the in-memory append is kept. -/
def saveAuditDecision (currentMatch : Option FileMatch) (pendingDecision : String)
    (assessment : String) (now : Nat) (writeOk : Bool) : Option SaveOutcome :=
  match currentMatch with
  | none => none
  | some m =>
    if pendingDecision = "" then none
    else
      let d : AuditDecision :=
        { decision := pendingDecision, assessment := assessment, timestamp := now }
      let m' : FileMatch := { m with auditCmd := m.auditCmd ++ [d] }
      if writeOk then
        some { updatedMatch := m', persisted := true, errorShown := false }
      else
        some { updatedMatch := m', persisted := false, errorShown := true }

/-- C1: a successful `saveAuditDecision` (non-nil current match,
non-empty pending decision) appends exactly the entry
`{outcome, comment, now}` at the end of the decision history: the
length grows by one and every prior entry keeps its value and its
position. -/
theorem saveAuditDecision_appends (m : FileMatch) (pending assessment : String)
    (now : Nat) (writeOk : Bool) (out : SaveOutcome)
    (h : saveAuditDecision (some m) pending assessment now writeOk = some out) :
    out.updatedMatch.auditCmd
        = m.auditCmd ++ [{ decision := pending, assessment := assessment, timestamp := now }]
      ∧ out.updatedMatch.auditCmd.length = m.auditCmd.length + 1
      ∧ ∀ i, i < m.auditCmd.length →
          out.updatedMatch.auditCmd[i]? = m.auditCmd[i]? := by
  unfold saveAuditDecision at h
  by_cases hp : pending = ""
  · simp [hp] at h
  · simp only [hp, if_false] at h
    have hm : out.updatedMatch =
        { m with auditCmd := m.auditCmd ++
            [{ decision := pending, assessment := assessment, timestamp := now }] } := by
      cases writeOk <;> simp only [if_true, if_false, Bool.false_eq_true,
        Option.some.injEq] at h <;> rw [← h]
    refine ⟨by rw [hm], by rw [hm]; simp, ?_⟩
    intro i hi
    rw [hm]
    show (m.auditCmd ++
        [({ decision := pending, assessment := assessment, timestamp := now } : AuditDecision)])[i]?
      = m.auditCmd[i]?
    exact List.getElem?_append_left hi

/-- Closed witness for `saveAuditDecision_appends` at a concrete match. -/
theorem saveAuditDecision_appends_witness :
    (FileMatch.mk "file" "a.c" [] [] OSSLines.null
        [⟨"ignored", "", 1⟩]).auditCmd.length + 1 = 2 ∧
    ∀ out, saveAuditDecision (some (FileMatch.mk "file" "a.c" [] [] OSSLines.null
        [⟨"ignored", "", 1⟩])) "identified" "ok" 7 true = some out →
      out.updatedMatch.auditCmd = [⟨"ignored", "", 1⟩, ⟨"identified", "ok", 7⟩] := by
  refine ⟨rfl, ?_⟩
  intro out h
  have := (saveAuditDecision_appends
    (FileMatch.mk "file" "a.c" [] [] OSSLines.null [⟨"ignored", "", 1⟩])
    "identified" "ok" 7 true out h).1
  simpa using this

/-- C7: when the in-memory append succeeds but the write back to the
input file fails (`writeOk = false`), the error dialog is raised and
the appended entry is not rolled back: it is still the last entry of
the in-memory decision history. -/
theorem saveAuditDecision_write_failure_keeps_decision (m : FileMatch)
    (pending assessment : String) (now : Nat) (hp : pending ≠ "") :
    saveAuditDecision (some m) pending assessment now false
      = some { updatedMatch :=
                { m with auditCmd := m.auditCmd ++
                    [{ decision := pending, assessment := assessment, timestamp := now }] },
               persisted := false,
               errorShown := true } := by
  unfold saveAuditDecision
  simp [hp]

/-- Closed witness for `saveAuditDecision_write_failure_keeps_decision`. -/
theorem saveAuditDecision_write_failure_witness :
    saveAuditDecision (some (FileMatch.mk "snippet" "b.c" [] [] OSSLines.null []))
        "ignored" "dup" 3 false
      = some { updatedMatch := FileMatch.mk "snippet" "b.c" [] [] OSSLines.null
                 [⟨"ignored", "dup", 3⟩],
               persisted := false,
               errorShown := true } := by
  have := saveAuditDecision_write_failure_keeps_decision
    (FileMatch.mk "snippet" "b.c" [] [] OSSLines.null []) "ignored" "dup" 3
    (by decide)
  simpa using this

/-- C2: the ranking builder, the file-list logic and the CSV exporter
all select the same authoritative match for a path: the first match
classified `"file"` or `"snippet"` in the path's ordered match list.
No two components can disagree. -/
theorem firstValidMatch_consistent (ms : List FileMatch) :
    firstValidMatchExport ms = firstValidMatchFileList ms
      ∧ firstValidMatchRanking ms = firstValidMatchExport ms := by
  induction ms with
  | nil => exact ⟨rfl, rfl⟩
  | cons m rest ih =>
    by_cases hf : m.id = "file"
    · simp [firstValidMatchExport, firstValidMatchFileList, firstValidMatchRanking, hf]
    · by_cases hs : m.id = "snippet"
      · simp [firstValidMatchExport, firstValidMatchFileList, firstValidMatchRanking, hf, hs]
      · simpa [firstValidMatchExport, firstValidMatchFileList, firstValidMatchRanking,
          hf, hs] using ih

/-! ### FilterEngine: filter cycling and view-type toggling (`main.go`) -/

/-- `cycleViewFilter` (`main.go`): in PURL (ranking) mode the selector
cycles between `"matched"` and `"pending"` (anything else falls back to
`"matched"`); in directory mode it cycles
`"all" → "matched" → "pending" → "all"` (anything else falls back to
`"all"`). -/
def cycleViewFilter (treeViewType viewFilter : String) : String :=
  if treeViewType = "purls" then
    match viewFilter with
    | "matched" => "pending"
    | "pending" => "matched"
    | _ => "matched"
  else
    match viewFilter with
    | "all" => "matched"
    | "matched" => "pending"
    | "pending" => "all"
    | _ => "all"

/-- `toggleTreeViewType` (`main.go`), restricted to its effect on
`(TreeViewType, ViewFilter)`: switching from directory view to PURL
view forces the filter from `"all"` to `"matched"`; switching back
leaves the filter untouched. -/
def toggleTreeViewType (treeViewType viewFilter : String) : String × String :=
  if treeViewType = "directories" then
    ("purls", if viewFilter = "all" then "matched" else viewFilter)
  else
    ("directories", viewFilter)

/-- C8: the filter selector cycles `all → matched → pending → all` in
directory mode (anything else steps to `all`), cycles
`matched → pending → matched` in ranking mode (anything else steps to
`matched`), and entering ranking mode from any selector value in
`{all, matched, pending}` lands in `{matched, pending}` — so the
selector stays in `{matched, pending}` in ranking mode. -/
theorem viewFilter_state_machine :
    (cycleViewFilter "directories" "all" = "matched"
      ∧ cycleViewFilter "directories" "matched" = "pending"
      ∧ cycleViewFilter "directories" "pending" = "all"
      ∧ ∀ f, f ≠ "all" → f ≠ "matched" → f ≠ "pending" →
          cycleViewFilter "directories" f = "all")
    ∧ (cycleViewFilter "purls" "matched" = "pending"
      ∧ cycleViewFilter "purls" "pending" = "matched"
      ∧ ∀ f, f ≠ "matched" → f ≠ "pending" → cycleViewFilter "purls" f = "matched")
    ∧ toggleTreeViewType "directories" "all" = ("purls", "matched")
    ∧ (∀ f, f = "all" ∨ f = "matched" ∨ f = "pending" →
        (toggleTreeViewType "directories" f).1 = "purls"
          ∧ ((toggleTreeViewType "directories" f).2 = "matched"
              ∨ (toggleTreeViewType "directories" f).2 = "pending"))
    ∧ (∀ f, cycleViewFilter "purls" f = "matched" ∨ cycleViewFilter "purls" f = "pending") := by
  refine ⟨⟨by decide, by decide, by decide, ?_⟩, ⟨by decide, by decide, ?_⟩, by decide, ?_, ?_⟩
  · intro f h1 h2 h3
    unfold cycleViewFilter
    rw [if_neg (by decide)]
    split <;> simp_all
  · intro f h1 h2
    unfold cycleViewFilter
    rw [if_pos (by decide)]
    split <;> simp_all
  · rintro f (rfl | rfl | rfl) <;> exact ⟨by decide, by decide⟩
  · intro f
    unfold cycleViewFilter
    rw [if_pos (by decide)]
    split
    · exact Or.inr rfl
    · exact Or.inl rfl
    · exact Or.inl rfl

/-- Closed witness for `viewFilter_state_machine`: the default-case and
membership clauses instantiated at concrete selector values. -/
theorem viewFilter_state_machine_witness :
    cycleViewFilter "directories" "bogus" = "all"
      ∧ cycleViewFilter "purls" "all" = "matched"
      ∧ (toggleTreeViewType "directories" "pending").1 = "purls" := by
  refine ⟨?_, ?_, ?_⟩
  · exact viewFilter_state_machine.1.2.2.2 "bogus" (by decide) (by decide) (by decide)
  · exact viewFilter_state_machine.2.1.2.2 "all" (by decide) (by decide)
  · exact (viewFilter_state_machine.2.2.2.1 "pending" (Or.inr (Or.inr rfl))).1

/-! ### FilterEngine: directory counting (`countFilesInDirectory`) -/

/-- The inner loop of `countFilesInDirectory`: walk the match list, and
at the first match with `ID` `"file"` or `"snippet"` bump the counter
according to the view filter (`"pending"` only counts matches with an
empty decision history), then break. -/
def countValidFirst (viewFilter : String) : List FileMatch → Nat → Nat
  | [], count => count
  | m :: rest, count =>
    if m.id = "file" || m.id = "snippet" then
      match viewFilter with
      | "matched" => count + 1
      | "pending" => if m.auditCmd.isEmpty then count + 1 else count
      | _ => count + 1
    else countValidFirst viewFilter rest count

/-- `countFilesInDirectory` (tree-state file): for every path of the
scan result, membership in the directory is `!strings.Contains(p, "/")`
for the root (`""`) and `strings.HasPrefix(p, dirPath + "/")`
otherwise; in `"all"` mode every member counts, in the other modes the
first valid match decides. -/
def countFilesInDirectory (scan : ScanResult) (viewFilter : String) (dirPath : String) : Nat :=
  scan.files.foldl (fun count pr =>
    let isInDirectory :=
      if dirPath = "" then !(containsChar pr.1 '/')
      else hasPrefixStr pr.1 (dirPath ++ "/")
    if isInDirectory then
      if viewFilter = "all" then count + 1
      else countValidFirst viewFilter pr.2 count
    else count) 0

/-- Directory membership as worded by the claim: root membership means
the path contains no `/`; non-root membership means the path starts
with `dirPath + "/"`. -/
def dirMember (dirPath p : String) : Bool :=
  if dirPath = "" then !(containsChar p '/') else hasPrefixStr p (dirPath ++ "/")

/-- The filter predicate as worded by the claim: `"all"` accepts every
member; `"matched"` requires a first valid match; `"pending"` requires
a first valid match with an empty decision history. -/
def filterModePredicate (mode : String) (ms : List FileMatch) : Bool :=
  if mode = "all" then true
  else if mode = "matched" then (firstValidMatchFileList ms).isSome
  else
    match firstValidMatchFileList ms with
    | some m => m.auditCmd.isEmpty
    | none => false

/-- The count described by the claim: the number of scan-result paths
that are members of the directory and satisfy the filter predicate. -/
def claimDirCount (scan : ScanResult) (mode dirPath : String) : Nat :=
  (scan.files.filter (fun pr => dirMember dirPath pr.1 && filterModePredicate mode pr.2)).length

/-- The first-valid-match loop of `countFilesInDirectory` counts `1`
exactly when the claim's filter predicate holds, for the `"matched"`
and `"pending"` modes. -/
theorem countValidFirst_eq_pred (mode : String)
    (hm : mode = "matched" ∨ mode = "pending") (ms : List FileMatch) (c : Nat) :
    countValidFirst mode ms c = c + (if filterModePredicate mode ms then 1 else 0) := by
  induction ms generalizing c with
  | nil =>
    rcases hm with rfl | rfl <;> simp [countValidFirst, filterModePredicate,
      firstValidMatchFileList]
  | cons m rest ih =>
    by_cases hv : m.id = "file" || m.id = "snippet"
    · rcases hm with rfl | rfl
      · simp [countValidFirst, filterModePredicate, firstValidMatchFileList, hv]
      · by_cases he : m.auditCmd.isEmpty <;>
          simp [countValidFirst, filterModePredicate, firstValidMatchFileList, hv, he]
    · rcases hm with rfl | rfl <;>
        simp [countValidFirst, filterModePredicate, firstValidMatchFileList, hv, ih]

/-- A left fold whose step adds `1` exactly on elements satisfying `p`
computes the length of the `p`-filtered list. -/
theorem foldl_count_eq_filter_length {α : Type} (f : Nat → α → Nat) (p : α → Bool)
    (hf : ∀ c x, f c x = c + (if p x then 1 else 0)) :
    ∀ (l : List α) (c : Nat), l.foldl f c = c + (l.filter p).length := by
  intro l
  induction l with
  | nil => intro c; simp
  | cons x rest ih =>
    intro c
    rw [List.foldl_cons, ih, hf, List.filter_cons]
    by_cases hp : p x <;> simp [hp, Nat.add_assoc, Nat.add_comm 1]

/-- C4: for every directory node and every filter mode among `"all"`,
`"matched"`, `"pending"`, `countFilesInDirectory` returns exactly the
number of scan-result paths that are members of the directory (root
membership: no `/` in the path; non-root: path starts with
`dirPath + "/"`) and satisfy the mode's predicate (`all`: every member;
`matched`: first valid match exists; `pending`: first valid match
exists and has an empty decision history). -/
theorem countFilesInDirectory_correct (scan : ScanResult) (mode dirPath : String)
    (hm : mode = "all" ∨ mode = "matched" ∨ mode = "pending") :
    countFilesInDirectory scan mode dirPath = claimDirCount scan mode dirPath := by
  unfold countFilesInDirectory claimDirCount
  have hstep : ∀ (c : Nat) (pr : String × List FileMatch),
      (if (if dirPath = "" then !(containsChar pr.1 '/')
            else hasPrefixStr pr.1 (dirPath ++ "/")) then
          if mode = "all" then c + 1 else countValidFirst mode pr.2 c
        else c)
      = c + (if dirMember dirPath pr.1 && filterModePredicate mode pr.2 then 1 else 0) := by
    intro c pr
    have hmem : (if dirPath = "" then !(containsChar pr.1 '/')
        else hasPrefixStr pr.1 (dirPath ++ "/")) = dirMember dirPath pr.1 := rfl
    rw [hmem]
    by_cases hd : dirMember dirPath pr.1
    · rcases hm with rfl | hm'
      · simp [hd, filterModePredicate]
      · have hne : mode ≠ "all" := by rcases hm' with rfl | rfl <;> decide
        rw [if_pos hd, if_neg hne, countValidFirst_eq_pred mode hm']
        by_cases hp : filterModePredicate mode pr.2 <;> simp [hd, hp]
    · simp [hd]
  rw [foldl_count_eq_filter_length _
    (fun pr => dirMember dirPath pr.1 && filterModePredicate mode pr.2) hstep scan.files 0]
  simp

/-- Closed witness for `countFilesInDirectory_correct`: a two-path scan
result counted in `"pending"` mode under directory `"a"`. -/
theorem countFilesInDirectory_witness :
    countFilesInDirectory
        (ScanResult.mk
          [("a/b.c", [FileMatch.mk "file" "b.c" [] [] OSSLines.null []]),
           ("a/c.c", [FileMatch.mk "file" "c.c" [] [] OSSLines.null [⟨"identified", "", 0⟩]]),
           ("d.c", [FileMatch.mk "none" "d.c" [] [] OSSLines.null []])])
        "pending" "a" = 1 := by
  have := countFilesInDirectory_correct
    (ScanResult.mk
      [("a/b.c", [FileMatch.mk "file" "b.c" [] [] OSSLines.null []]),
       ("a/c.c", [FileMatch.mk "file" "c.c" [] [] OSSLines.null [⟨"identified", "", 0⟩]]),
       ("d.c", [FileMatch.mk "none" "d.c" [] [] OSSLines.null []])])
    "pending" "a" (Or.inr (Or.inr rfl))
  rw [this]
  decide

/-! ### ExportEngine: default-branch lookup with cache (`export.go`) -/

/-- Outcome of the GitHub repository-info request
(`client.Get` on `https://api.github.com/repos/owner/repo`):
`err` is a request/timeout error; `resp status decode` is an HTTP
response with its status code and the JSON decode result (`none` for a
decode error, `some b` for a decoded `default_branch` value, possibly
empty). -/
inductive HttpResult where
  | err : HttpResult
  | resp (status : Nat) (decode : Option String) : HttpResult
deriving DecidableEq, Repr

/-- `defaultBranchCache` lookup: the Go map keyed by
`owner + "/" + repo` is modelled as an association list read through
the first matching key. -/
def cacheLookup (cache : List (String × String)) (k : String) : Option String :=
  (cache.find? (fun pr => pr.1 = k)).map Prod.snd

/-- `getDefaultBranch` (`export.go`): return the cached branch when the
`owner + "/" + repo` key is present (no remote request); otherwise
perform one remote request via `oracle` and fall back to `"master"` on
request error, non-200 status, JSON decode failure or empty branch
name, caching whatever was decided.  The result is the triple
(branch, updated cache, number of remote requests made by this call). -/
def getDefaultBranch (oracle : String → String → HttpResult)
    (cache : List (String × String)) (owner repo : String) :
    String × List (String × String) × Nat :=
  match cacheLookup cache (owner ++ "/" ++ repo) with
  | some branch => (branch, cache, 0)
  | none =>
    match oracle owner repo with
    | HttpResult.err => ("master", (owner ++ "/" ++ repo, "master") :: cache, 1)
    | HttpResult.resp status decode =>
      if status ≠ 200 then ("master", (owner ++ "/" ++ repo, "master") :: cache, 1)
      else
        match decode with
        | none => ("master", (owner ++ "/" ++ repo, "master") :: cache, 1)
        | some b =>
          if b = "" then ("master", (owner ++ "/" ++ repo, "master") :: cache, 1)
          else (b, (owner ++ "/" ++ repo, b) :: cache, 1)

/-- The lookup failures of `getDefaultBranch` that trigger the
`"master"` fallback: request error, non-200 status, decode failure, or
empty branch name. -/
def lookupFailed (r : HttpResult) : Prop :=
  r = HttpResult.err
    ∨ (∃ status decode, r = HttpResult.resp status decode ∧ status ≠ 200)
    ∨ (∃ status, r = HttpResult.resp status none)
    ∨ (∃ status, r = HttpResult.resp status (some ""))

/-- Total number of remote requests attributable to the cache key `k`
over a sequence of `getDefaultBranch` calls threading the cache. -/
def requestsFor (oracle : String → String → HttpResult) :
    List (String × String) → List (String × String) → String → Nat
  | [], _, _ => 0
  | (o, r) :: calls, cache, k =>
    (if o ++ "/" ++ r = k then (getDefaultBranch oracle cache o r).2.2 else 0)
      + requestsFor oracle calls (getDefaultBranch oracle cache o r).2.1 k

/-- Looking up the key just inserted at the head of the cache. -/
theorem cacheLookup_cons_self (cache : List (String × String)) (k v : String) :
    cacheLookup ((k, v) :: cache) k = some v := by
  simp [cacheLookup]

/-- Inserting a different key does not change a lookup. -/
theorem cacheLookup_cons_ne (cache : List (String × String)) (k k' v : String)
    (h : k' ≠ k) : cacheLookup ((k', v) :: cache) k = cacheLookup cache k := by
  unfold cacheLookup
  rw [List.find?_cons_of_neg _ (by simpa using h)]

/-- A cache hit short-circuits `getDefaultBranch`: the cached branch is
returned, the cache is unchanged and no remote request happens. -/
theorem getDefaultBranch_hit (oracle : String → String → HttpResult)
    (cache : List (String × String)) (owner repo branch : String)
    (h : cacheLookup cache (owner ++ "/" ++ repo) = some branch) :
    getDefaultBranch oracle cache owner repo = (branch, cache, 0) := by
  simp [getDefaultBranch, h]

/-- On a cache miss with a failing lookup, `getDefaultBranch` answers
and caches the fallback `"master"`, making one remote request. -/
theorem getDefaultBranch_miss_fail (oracle : String → String → HttpResult)
    (cache : List (String × String)) (owner repo : String)
    (hmiss : cacheLookup cache (owner ++ "/" ++ repo) = none)
    (hfail : lookupFailed (oracle owner repo)) :
    getDefaultBranch oracle cache owner repo
      = ("master", (owner ++ "/" ++ repo, "master") :: cache, 1) := by
  rcases hfail with he | ⟨status, decode, hr, hs⟩ | ⟨status, hr⟩ | ⟨status, hr⟩
  · simp [getDefaultBranch, hmiss, he]
  · cases decode <;> simp [getDefaultBranch, hmiss, hr, hs]
  · by_cases hs : status = 200 <;> simp [getDefaultBranch, hmiss, hr, hs]
  · by_cases hs : status = 200 <;> simp [getDefaultBranch, hmiss, hr, hs]

/-- Every `getDefaultBranch` call is either a cache hit (cached value,
unchanged cache, no request) or a cache miss that prepends its key with
the decided branch and makes exactly one request. -/
theorem getDefaultBranch_cases (oracle : String → String → HttpResult)
    (cache : List (String × String)) (owner repo : String) :
    (∃ br, cacheLookup cache (owner ++ "/" ++ repo) = some br
        ∧ getDefaultBranch oracle cache owner repo = (br, cache, 0))
    ∨ (∃ br, cacheLookup cache (owner ++ "/" ++ repo) = none
        ∧ getDefaultBranch oracle cache owner repo
            = (br, (owner ++ "/" ++ repo, br) :: cache, 1)) := by
  cases hc : cacheLookup cache (owner ++ "/" ++ repo) with
  | some br => exact Or.inl ⟨br, rfl, getDefaultBranch_hit oracle cache owner repo br hc⟩
  | none =>
    refine Or.inr ?_
    cases ho : oracle owner repo with
    | err => exact ⟨"master", rfl, by simp [getDefaultBranch, hc, ho]⟩
    | resp status decode =>
      by_cases hs : status = 200
      · subst hs
        cases decode with
        | none => exact ⟨"master", rfl, by simp [getDefaultBranch, hc, ho]⟩
        | some b =>
          by_cases hb : b = ""
          · exact ⟨"master", rfl, by simp [getDefaultBranch, hc, ho, hb]⟩
          · exact ⟨b, rfl, by simp [getDefaultBranch, hc, ho, hb]⟩
      · exact ⟨"master", rfl, by simp [getDefaultBranch, hc, ho, hs]⟩

/-- After any `getDefaultBranch` call, its owner/repo key is present in
the returned cache. -/
theorem getDefaultBranch_caches (oracle : String → String → HttpResult)
    (cache : List (String × String)) (owner repo : String) :
    ∃ b, cacheLookup (getDefaultBranch oracle cache owner repo).2.1
        (owner ++ "/" ++ repo) = some b := by
  rcases getDefaultBranch_cases oracle cache owner repo with ⟨br, hc, he⟩ | ⟨br, _, he⟩
  · exact ⟨br, by rw [he]; exact hc⟩
  · exact ⟨br, by rw [he]; exact cacheLookup_cons_self cache _ _⟩

/-- `getDefaultBranch` never removes or changes an existing cache
entry. -/
theorem getDefaultBranch_cache_mono (oracle : String → String → HttpResult)
    (cache : List (String × String)) (owner repo k b : String)
    (h : cacheLookup cache k = some b) :
    cacheLookup (getDefaultBranch oracle cache owner repo).2.1 k = some b := by
  rcases getDefaultBranch_cases oracle cache owner repo with ⟨br, _, he⟩ | ⟨br, hc, he⟩
  · rw [he]
    exact h
  · rw [he]
    have hk : owner ++ "/" ++ repo ≠ k := by
      intro hkk
      rw [hkk, h] at hc
      exact Option.noConfusion hc
    rw [cacheLookup_cons_ne cache k _ br hk]
    exact h

/-- Each `getDefaultBranch` call makes at most one remote request. -/
theorem getDefaultBranch_le_one (oracle : String → String → HttpResult)
    (cache : List (String × String)) (owner repo : String) :
    (getDefaultBranch oracle cache owner repo).2.2 ≤ 1 := by
  rcases getDefaultBranch_cases oracle cache owner repo with ⟨br, _, he⟩ | ⟨br, _, he⟩
  · rw [he]
    exact Nat.zero_le 1
  · rw [he]

/-- Once a key is cached, no later call in a sequence makes a remote
request for it. -/
theorem requestsFor_zero_of_cached (oracle : String → String → HttpResult)
    (calls : List (String × String)) :
    ∀ (cache : List (String × String)) (k b : String),
      cacheLookup cache k = some b → requestsFor oracle calls cache k = 0 := by
  induction calls with
  | nil => intro cache k b _; rfl
  | cons c rest ih =>
    intro cache k b h
    obtain ⟨o, r⟩ := c
    unfold requestsFor
    by_cases hk : o ++ "/" ++ r = k
    · rw [if_pos hk]
      rw [getDefaultBranch_hit oracle cache o r b (hk ▸ h)]
      simpa using ih cache k b h
    · rw [if_neg hk]
      have hmono := getDefaultBranch_cache_mono oracle cache o r k b h
      rw [ih _ k b hmono]

/-- C5: deep-link generation resolves unpinned revisions through
`getDefaultBranch`, which (a) on any lookup failure — request error,
non-200 status, decode failure, or empty branch name — returns the
fixed fallback `"master"` instead of failing the export, and (b)
caches the result per owner/repository, so over any sequence of calls
during one export the same repository causes at most one remote
request. -/
theorem getDefaultBranch_fallback_and_cached (oracle : String → String → HttpResult)
    (cache : List (String × String)) (owner repo : String)
    (calls : List (String × String)) (k : String) :
    (cacheLookup cache (owner ++ "/" ++ repo) = none → lookupFailed (oracle owner repo) →
      (getDefaultBranch oracle cache owner repo).1 = "master")
    ∧ requestsFor oracle calls [] k ≤ 1 := by
  constructor
  · intro hmiss hfail
    rw [getDefaultBranch_miss_fail oracle cache owner repo hmiss hfail]
  · suffices h : ∀ (cache : List (String × String)),
        requestsFor oracle calls cache k ≤ 1 from h []
    induction calls with
    | nil => intro cache; exact Nat.zero_le 1
    | cons c rest ih =>
      intro cache
      obtain ⟨o, r⟩ := c
      unfold requestsFor
      by_cases hk : o ++ "/" ++ r = k
      · rw [if_pos hk]
        obtain ⟨b, hb⟩ := getDefaultBranch_caches oracle cache o r
        rw [requestsFor_zero_of_cached oracle rest _ k b (hk ▸ hb), Nat.add_zero]
        exact getDefaultBranch_le_one oracle cache o r
      · rw [if_neg hk]
        simpa using ih (getDefaultBranch oracle cache o r).2.1

/-- Closed witness for `getDefaultBranch_fallback_and_cached`: a failing
oracle on an empty cache yields `"master"`, and two successive files
from the same repository make at most one request. -/
theorem getDefaultBranch_fallback_witness :
    (getDefaultBranch (fun _ _ => HttpResult.err) [] "scanoss" "engine").1 = "master"
      ∧ requestsFor (fun _ _ => HttpResult.err)
          [("scanoss", "engine"), ("scanoss", "engine")] [] "scanoss/engine" ≤ 1 := by
  have h := getDefaultBranch_fallback_and_cached (fun _ _ => HttpResult.err) []
    "scanoss" "engine" [("scanoss", "engine"), ("scanoss", "engine")] "scanoss/engine"
  exact ⟨h.1 (by decide) (Or.inl rfl), h.2⟩

/-- C10: a failed lookup is cached negatively: the failing call itself
returns `"master"`, stores `"master"` under the owner/repository key
and counts one request; afterwards every later call for the same
owner/repository — under any oracle, i.e. even if the remote has
recovered — answers `"master"` from the cache with zero remote
requests and an unchanged cache, so a transient failure is never
retried. -/
theorem getDefaultBranch_negative_cache (oracle : String → String → HttpResult)
    (cache : List (String × String)) (owner repo : String)
    (hmiss : cacheLookup cache (owner ++ "/" ++ repo) = none)
    (hfail : lookupFailed (oracle owner repo)) :
    getDefaultBranch oracle cache owner repo
        = ("master", (owner ++ "/" ++ repo, "master") :: cache, 1)
      ∧ ∀ oracle' : String → String → HttpResult,
          getDefaultBranch oracle' ((owner ++ "/" ++ repo, "master") :: cache) owner repo
            = ("master", (owner ++ "/" ++ repo, "master") :: cache, 0) := by
  refine ⟨getDefaultBranch_miss_fail oracle cache owner repo hmiss hfail, ?_⟩
  intro oracle'
  exact getDefaultBranch_hit oracle' _ owner repo "master" (cacheLookup_cons_self cache _ _)

/-- Closed witness for `getDefaultBranch_negative_cache`: after a 403
response the fallback is cached and a later call with a recovered
remote still answers `"master"` without a request. -/
theorem getDefaultBranch_negative_cache_witness :
    getDefaultBranch (fun _ _ => HttpResult.resp 403 none) [] "o" "r"
        = ("master", [("o/r", "master")], 1)
      ∧ getDefaultBranch (fun _ _ => HttpResult.resp 200 (some "main"))
          [("o/r", "master")] "o" "r" = ("master", [("o/r", "master")], 0) := by
  have h := getDefaultBranch_negative_cache (fun _ _ => HttpResult.resp 403 none) []
    "o" "r" (by decide)
    (Or.inr (Or.inl ⟨403, none, rfl, by decide⟩))
  exact ⟨h.1, h.2 (fun _ _ => HttpResult.resp 200 (some "main"))⟩

/-! ### ViewIndexBuilder: directory tree construction (`buildFileTree`) -/

/-- A node of the synthetic directory tree (Go struct `TreeNode`).
The `Parent` back-reference cannot be represented in a purely
functional tree and the `Files` field is always left empty by
`buildFileTree`, so both are omitted. -/
inductive TreeNode where
  | node (name : String) (path : String) (isDir : Bool) (children : List TreeNode) : TreeNode
deriving Repr

/-- The `Name` field. -/
def TreeNode.name : TreeNode → String
  | TreeNode.node n _ _ _ => n

/-- The `Path` field. -/
def TreeNode.path : TreeNode → String
  | TreeNode.node _ p _ _ => p

/-- The `IsDir` field. -/
def TreeNode.isDir : TreeNode → Bool
  | TreeNode.node _ _ d _ => d

/-- The `Children` field. -/
def TreeNode.children : TreeNode → List TreeNode
  | TreeNode.node _ _ _ c => c

/-- The valid-match test of `buildFileTree`: some match of the list has
`ID` `"file"` or `"snippet"`. -/
def hasValidMatch (ms : List FileMatch) : Bool :=
  ms.any (fun m => m.id = "file" || m.id = "snippet")

/-- The paths gathered by `buildFileTree`'s first loop: all scan-result
paths that have a valid match. -/
def validPaths (scan : ScanResult) : List String :=
  scan.files.filterMap (fun pr => if hasValidMatch pr.2 then some pr.1 else none)

/-- Byte-wise lexicographic string order (`sort.Strings` comparison,
character-wise on ASCII input). -/
def charListLe : List Char → List Char → Bool
  | [], _ => true
  | _ :: _, [] => false
  | a :: as, b :: bs => if a < b then true else if b < a then false else charListLe as bs

/-- `a <= b` on strings. -/
def strLe (a b : String) : Bool := charListLe a.toList b.toList

/-- Insertion step of the sort modelling `sort.Strings`. -/
def insertSorted (s : String) : List String → List String
  | [] => [s]
  | t :: rest => if strLe s t then s :: t :: rest else t :: insertSorted s rest

/-- `sort.Strings` (insertion sort; a deterministic ascending sort like
Go's). -/
def sortStrings : List String → List String
  | [] => []
  | s :: rest => insertSorted s (sortStrings rest)

/-- The directory-chain insertion loop of `buildFileTree`: walk the
directory segments `parts[:len(parts)-1]` (empty segments skipped,
`idx` tracking the position inside the full `parts` list), reuse an
existing child with the same name, otherwise append a new directory
node whose path is `strings.Join(parts[:idx+1], "/")`. -/
def insertSegs (allParts : List String) : List String → Nat → List TreeNode → List TreeNode
  | [], _, children => children
  | seg :: rest, idx, children =>
    if seg = "" then insertSegs allParts rest (idx + 1) children
    else
      match children.findIdx? (fun c => c.name = seg) with
      | some j =>
        match children[j]? with
        | some c =>
          children.set j (TreeNode.node c.name c.path c.isDir
            (insertSegs allParts rest (idx + 1) c.children))
        | none => children
      | none =>
        children ++ [TreeNode.node seg (pathJoin (allParts.take (idx + 1))) true
          (insertSegs allParts rest (idx + 1) [])]

/-- `buildFileTree`'s main loop: fold the sorted valid paths into the
root's children, splitting each path on `"/"`. -/
def buildDirChildren (scan : ScanResult) : List TreeNode :=
  (sortStrings (validPaths scan)).foldl
    (fun ch p => insertSegs (splitChar '/' p) ((splitChar '/' p).dropLast) 0 ch) []

/-- `buildFileTree`'s "All Files" special case: if no directory node
was created but valid paths exist, a single virtual "All Files" node
is added. -/
def baseChildren (scan : ScanResult) : List TreeNode :=
  if (buildDirChildren scan).isEmpty && !(sortStrings (validPaths scan)).isEmpty then
    [TreeNode.node "All Files" "" true []]
  else buildDirChildren scan

/-- `buildFileTree`'s root-file scan: all paths of the scan result
(regardless of match validity) that contain no `"/"`. -/
def rootFilesOf (scan : ScanResult) : List String :=
  scan.files.filterMap (fun pr => if containsChar pr.1 '/' then none else some pr.1)

/-- `buildFileTree` (`main.go`): build directory chains for every valid
path, add the "All Files" node when no directory was created, and when
root-level files exist prepend an explicit "." node as the first child
of the root. -/
def buildFileTree (scan : ScanResult) : TreeNode :=
  if !(rootFilesOf scan).isEmpty then
    TreeNode.node "Root" "" true (TreeNode.node "." "" true [] :: baseChildren scan)
  else
    TreeNode.node "Root" "" true (baseChildren scan)

/-- The trigger condition as worded by claim C9: some valid match has a
path containing no `"/"`. -/
def existsValidBarePath (scan : ScanResult) : Bool :=
  scan.files.any (fun pr => hasValidMatch pr.2 && !(containsChar pr.1 '/'))

/-- Joining a segment list that ends in a non-empty segment yields a
non-empty path. -/
theorem pathJoin_ne_empty (xs : List String) (seg : String) (hseg : seg ≠ "") :
    pathJoin (xs ++ [seg]) ≠ "" := by
  have happ : ∀ a b : String, a ++ "/" ++ b ≠ "" := by
    intro a b h
    have hlen := congrArg String.length h
    rw [String.length_append, String.length_append] at hlen
    simp at hlen
    exact absurd hlen.1.2 (by decide)
  induction xs with
  | nil => simpa [pathJoin] using hseg
  | cons x xs ih =>
    cases xs with
    | nil => simpa [pathJoin] using happ x seg
    | cons y ys => simpa [pathJoin] using happ x (pathJoin (y :: (ys ++ [seg])))

/-- Every node of the children list returned by `insertSegs` has a
non-empty path, provided the incoming children do and the remaining
segments are the suffix of the directory segments starting at `idx`. -/
theorem insertSegs_path_ne (allParts : List String) :
    ∀ (rem : List String) (idx : Nat) (children : List TreeNode),
      allParts.dropLast.drop idx = rem →
      (∀ c ∈ children, c.path ≠ "") →
      ∀ c ∈ insertSegs allParts rem idx children, c.path ≠ "" := by
  intro rem
  induction rem with
  | nil =>
    intro idx children _ hch
    simpa [insertSegs] using hch
  | cons seg rest ih =>
    intro idx children hrem hch
    have hrest : allParts.dropLast.drop (idx + 1) = rest := by
      have := List.drop_drop 1 idx allParts.dropLast
      rw [hrem] at this
      simpa using this.symm
    by_cases hseg : seg = ""
    · simp only [insertSegs, hseg, if_true]
      exact ih (idx + 1) children hrest hch
    · simp only [insertSegs, hseg, if_false]
      cases hfind : List.findIdx? (fun c => c.name = seg) children with
      | some j =>
        show ∀ c ∈ (match children[j]? with
            | some c => children.set j (TreeNode.node c.name c.path c.isDir
                (insertSegs allParts rest (idx + 1) c.children))
            | none => children), c.path ≠ ""
        cases hj : children[j]? with
        | some c =>
          show ∀ x ∈ children.set j (TreeNode.node c.name c.path c.isDir
              (insertSegs allParts rest (idx + 1) c.children)), x.path ≠ ""
          intro x hx
          rcases List.mem_or_eq_of_mem_set hx with hx' | rfl
          · exact hch x hx'
          · exact hch c (List.getElem?_mem hj)
        | none => exact hch
      | none =>
        show ∀ x ∈ children ++ [TreeNode.node seg (pathJoin (allParts.take (idx + 1))) true
            (insertSegs allParts rest (idx + 1) [])], x.path ≠ ""
        intro x hx
        rcases List.mem_append.mp hx with hx' | hx'
        · exact hch x hx'
        · have hxeq : x = TreeNode.node seg (pathJoin (allParts.take (idx + 1))) true
              (insertSegs allParts rest (idx + 1) []) := by
            simpa using hx'
          have hsome : allParts[idx]? = some seg := by
            have h0 : (allParts.dropLast.drop idx)[0]? = some seg := by
              rw [hrem]
              simp
            have h1 : allParts.dropLast[idx]? = some seg := by
              rw [List.getElem?_drop] at h0
              simpa using h0
            rw [List.dropLast_eq_take, List.getElem?_take] at h1
            by_cases hlt : idx < allParts.length - 1
            · rwa [if_pos hlt] at h1
            · rw [if_neg hlt] at h1
              exact Option.noConfusion h1
          have htake : allParts.take (idx + 1) = allParts.take idx ++ [seg] := by
            rw [List.take_succ, hsome]
            rfl
          rw [hxeq]
          show pathJoin (allParts.take (idx + 1)) ≠ ""
          rw [htake]
          exact pathJoin_ne_empty (allParts.take idx) seg hseg

/-- Every top-level directory node created by `buildDirChildren` has a
non-empty path. -/
theorem buildDirChildren_path_ne (scan : ScanResult) :
    ∀ c ∈ buildDirChildren scan, c.path ≠ "" := by
  unfold buildDirChildren
  suffices h : ∀ (paths : List String) (acc : List TreeNode),
      (∀ c ∈ acc, c.path ≠ "") →
      ∀ c ∈ paths.foldl
          (fun ch p => insertSegs (splitChar '/' p) ((splitChar '/' p).dropLast) 0 ch) acc,
        c.path ≠ "" by
    exact h (sortStrings (validPaths scan)) [] (by intro c hc; cases hc)
  intro paths
  induction paths with
  | nil => intro acc hacc; simpa using hacc
  | cons p rest ih =>
    intro acc hacc
    rw [List.foldl_cons]
    exact ih _ (insertSegs_path_ne (splitChar '/' p) ((splitChar '/' p).dropLast) 0 acc
      (by rw [List.drop_zero]) hacc)

/-- No node of `baseChildren` is the synthesized root node: each either
has a different name (`"All Files"`, or a path segment) or a non-empty
path. -/
theorem baseChildren_no_dot (scan : ScanResult) :
    ∀ c ∈ baseChildren scan, ¬(c.name = "." ∧ c.path = "") := by
  unfold baseChildren
  by_cases hb : (buildDirChildren scan).isEmpty && !(sortStrings (validPaths scan)).isEmpty
  · rw [if_pos hb]
    intro c hc
    have : c = TreeNode.node "All Files" "" true [] := by simpa using hc
    rw [this]
    intro h
    exact absurd h.1 (by decide)
  · rw [if_neg hb]
    intro c hc h
    exact buildDirChildren_path_ne scan c hc h.2

/-- The root-file list is empty exactly when no path lacks a `"/"`. -/
theorem rootFilesOf_empty_iff (scan : ScanResult) :
    (rootFilesOf scan).isEmpty = true
      ↔ scan.files.any (fun pr => !(containsChar pr.1 '/')) = false := by
  unfold rootFilesOf
  induction scan.files with
  | nil => simp
  | cons pr rest ih =>
    by_cases hc : containsChar pr.1 '/'
    · rw [List.filterMap_cons]
      simp only [hc, if_true]
      rw [ih]
      simp [hc]
    · simp [List.filterMap_cons, hc]

/-- C9 (amended): `buildFileTree` synthesizes the explicit `"."` node
(name `"."`, empty path) and inserts it as the first child of the root
if and only if some path of the scan result — with or without a valid
match — contains no `"/"`; when no such path exists, no child of the
root is such a node. -/
theorem buildFileTree_dot_node (scan : ScanResult) :
    (scan.files.any (fun pr => !(containsChar pr.1 '/')) = true →
      (buildFileTree scan).children.head? = some (TreeNode.node "." "" true []))
    ∧ (scan.files.any (fun pr => !(containsChar pr.1 '/')) = false →
      ∀ c ∈ (buildFileTree scan).children, ¬(c.name = "." ∧ c.path = "")) := by
  constructor
  · intro hany
    have hne : ¬((rootFilesOf scan).isEmpty = true) := by
      intro he
      rw [(rootFilesOf_empty_iff scan).mp he] at hany
      exact Bool.noConfusion hany
    unfold buildFileTree
    rw [if_pos (by simpa using hne)]
    rfl
  · intro hnone
    have he : (rootFilesOf scan).isEmpty = true := (rootFilesOf_empty_iff scan).mpr hnone
    unfold buildFileTree
    rw [if_neg (by simp [he])]
    show ∀ c ∈ baseChildren scan, ¬(c.name = "." ∧ c.path = "")
    exact baseChildren_no_dot scan

/-- Closed witness for `buildFileTree_dot_node`: a scan with one
root-level path gets the `"."` node first; a scan with only nested
paths has no `"."` root child. -/
theorem buildFileTree_dot_node_witness :
    (buildFileTree (ScanResult.mk
        [("main.c", [FileMatch.mk "file" "main.c" [] [] OSSLines.null []])])).children.head?
      = some (TreeNode.node "." "" true []) := by
  apply (buildFileTree_dot_node (ScanResult.mk
    [("main.c", [FileMatch.mk "file" "main.c" [] [] OSSLines.null []])])).1
  rfl

/-- C9, counterexample to the claim as stated: for the scan result
`{"rootfile": []}` no valid match exists at all (so the claim predicts
no `"."` node), yet `buildFileTree` inserts the `"."` node as the first
child of the root, because the source scans all paths of
`ScanData.Files` for bare names, not only those with valid matches. -/
theorem buildFileTree_dot_node_counterexample :
    existsValidBarePath (ScanResult.mk [("rootfile", [])]) = false
      ∧ (buildFileTree (ScanResult.mk [("rootfile", [])])).children.head?
          = some (TreeNode.node "." "" true []) := by
  exact ⟨rfl, rfl⟩

/-! ### ExportEngine: CSV rows and deep links (`export.go`)

The network-dependent `getDefaultBranch` call inside deep-link
generation is abstracted by a `resolve : String → String → String`
parameter giving the branch the engine resolves for an owner/repo pair
(its caching behaviour is verified separately above). -/

/-- `extractLineRanges` (`export.go`): the `oss_lines` value when it is
a string (the `"all"` marker is passed through), `""` otherwise. -/
def extractLineRanges (m : FileMatch) : String :=
  match m.ossLines with
  | OSSLines.null => ""
  | OSSLines.str v => if v = "all" then "all" else v
  | OSSLines.other => ""

/-- `getMaxLineRanges` (`export.go`): the maximum number of
comma-separated ranges over every match classified `"snippet"` with a
concrete range string, starting from 1. -/
def getMaxLineRanges (scan : ScanResult) : Nat :=
  scan.files.foldl (fun maxRanges pr =>
    pr.2.foldl (fun maxRanges m =>
      if m.id = "snippet" then
        if extractLineRanges m ≠ "" && extractLineRanges m ≠ "all" then
          if (splitChar ',' (extractLineRanges m)).length > maxRanges then
            (splitChar ',' (extractLineRanges m)).length
          else maxRanges
        else maxRanges
      else maxRanges) maxRanges) 1

/-- The literal `pkg:github/` as a character list. -/
def pkgGithubLit : List Char := "pkg:github/".toList

/-- One attempt of the pinned-revision pattern
`pkg:github/([^/]+)/([^@?]+)@([^?]+)` at the start of `l`: each
character class is a maximal (greedy) non-empty run, exactly as the
RE2 engine matches this pattern. -/
def matchCommitAt (l : List Char) : Option (String × String × String) :=
  if pkgGithubLit.isPrefixOf l then
    match (l.drop pkgGithubLit.length).dropWhile (fun c => c ≠ '/'),
        (l.drop pkgGithubLit.length).takeWhile (fun c => c ≠ '/') with
    | '/' :: u, owner =>
      if owner.isEmpty then none
      else
        match u.dropWhile (fun c => c ≠ '@' && c ≠ '?'),
            u.takeWhile (fun c => c ≠ '@' && c ≠ '?') with
        | '@' :: v, repo =>
          if repo.isEmpty then none
          else
            if (v.takeWhile (fun c => c ≠ '?')).isEmpty then none
            else some (String.mk owner, String.mk repo,
              String.mk (v.takeWhile (fun c => c ≠ '?')))
        | _, _ => none
    | _, _ => none
  else none

/-- The unanchored search of `regexp.FindStringSubmatch` for the
pinned-revision pattern: try every start position, leftmost first. -/
def searchCommit : List Char → Option (String × String × String)
  | [] => none
  | c :: rest =>
    match matchCommitAt (c :: rest) with
    | some r => some r
    | none => searchCommit rest

/-- One attempt of the unpinned pattern `pkg:github/([^/]+)/([^?]+)` at
the start of `l`. -/
def matchNoCommitAt (l : List Char) : Option (String × String) :=
  if pkgGithubLit.isPrefixOf l then
    match (l.drop pkgGithubLit.length).dropWhile (fun c => c ≠ '/'),
        (l.drop pkgGithubLit.length).takeWhile (fun c => c ≠ '/') with
    | '/' :: u, owner =>
      if owner.isEmpty then none
      else
        if (u.takeWhile (fun c => c ≠ '?')).isEmpty then none
        else some (String.mk owner, String.mk (u.takeWhile (fun c => c ≠ '?')))
    | _, _ => none
  else none

/-- The unanchored search for the unpinned pattern. -/
def searchNoCommit : List Char → Option (String × String)
  | [] => none
  | c :: rest =>
    match matchNoCommitAt (c :: rest) with
    | some r => some r
    | none => searchNoCommit rest

/-- The GitHub blob URL
`https://github.com/owner/repo/blob/commit/filePath`. -/
def githubBaseURL (owner repo commit filePath : String) : String :=
  "https://github.com/" ++ owner ++ "/" ++ repo ++ "/blob/" ++ commit ++ "/" ++ filePath

/-- The line-anchor suffix logic of `generateGitHubDeeplinkWithRange`:
an `a-b` range (exactly two `-`-separated parts) becomes `#La-Lb`
(parts trimmed), a single line `n` becomes `#Ln`, anything else (empty
range, or a malformed multi-dash range) leaves the base URL alone. -/
def addLineAnchor (baseURL lineRange : String) : String :=
  if lineRange ≠ "" then
    if containsChar lineRange '-' then
      match splitChar '-' lineRange with
      | [a, b] => baseURL ++ "#L" ++ trimSpace a ++ "-L" ++ trimSpace b
      | _ => baseURL
    else baseURL ++ "#L" ++ lineRange
  else baseURL

/-- `generateGitHubDeeplinkWithRange` (`export.go`): parse the PURL
first with the pinned-revision pattern, then with the unpinned pattern
(resolving the revision through the default-branch lookup), and render
the blob URL with the optional line anchor; an unparsable PURL yields
`""`. -/
def generateGitHubDeeplinkWithRange (resolve : String → String → String)
    (purl filePath lineRange : String) : String :=
  match searchCommit purl.toList with
  | some (owner, repo, commit) =>
    addLineAnchor (githubBaseURL owner repo commit filePath) lineRange
  | none =>
    match searchNoCommit purl.toList with
    | some (owner, repo) =>
      addLineAnchor (githubBaseURL owner repo (resolve owner repo) filePath) lineRange
    | none => ""

/-- The `pkg:github/` PURL selection loop of
`generateMultipleDeeplinks`. -/
def firstGithubPurl : List String → Option String
  | [] => none
  | p :: rest => if hasPrefixStr p "pkg:github/" then some p else firstGithubPurl rest

/-- The range loop of `generateMultipleDeeplinks`: write one deep link
per range into slot `i`, stopping at `maxRanges`. -/
def fillRanges (resolve : String → String → String) (githubPurl file : String)
    (maxRanges : Nat) : List String → Nat → List String → List String
  | ds, _, [] => ds
  | ds, i, r :: rest =>
    if maxRanges ≤ i then ds
    else fillRanges resolve githubPurl file maxRanges
      (ds.set i (generateGitHubDeeplinkWithRange resolve githubPurl file (trimSpace r)))
      (i + 1) rest

/-- `generateMultipleDeeplinks` (`export.go`): a `maxRanges`-wide slice
of deep-link cells; snippet matches with a concrete range string get
one link per range, anything else gets a single link without line
anchor in the first cell; matches without a `pkg:github/` PURL leave
every cell empty. -/
def generateMultipleDeeplinks (resolve : String → String → String) (m : FileMatch)
    (lineRanges : String) (maxRanges : Nat) : List String :=
  if m.purl.isEmpty then List.replicate maxRanges ""
  else
    match firstGithubPurl m.purl with
    | none => List.replicate maxRanges ""
    | some githubPurl =>
      if m.id = "snippet" && lineRanges ≠ "" && lineRanges ≠ "all" then
        fillRanges resolve githubPurl m.file maxRanges (List.replicate maxRanges "") 0
          (splitChar ',' lineRanges)
      else
        (List.replicate maxRanges "").set 0
          (generateGitHubDeeplinkWithRange resolve githubPurl m.file "")

/-- `strings.Join(xs, "; ")`. -/
def joinSemicolon : List String → String
  | [] => ""
  | [s] => s
  | s :: t :: rest => s ++ "; " ++ joinSemicolon (t :: rest)

/-- The status column of `performCSVExport`: derived from the latest
decision-history entry only. -/
def rowStatus (m : FileMatch) : String :=
  match m.auditCmd.getLast? with
  | none => "Pending"
  | some latest =>
    if lowerStr latest.decision = "identified" then "Accepted"
    else if lowerStr latest.decision = "ignored" then "Ignored"
    else "Pending"

/-- The comment column of `performCSVExport`: the latest entry's
assessment. -/
def rowComment (m : FileMatch) : String :=
  match m.auditCmd.getLast? with
  | none => ""
  | some latest => latest.assessment

/-- One data row of `performCSVExport`: a path without a valid first
match becomes a `no-match`/`Pending` row padded with `maxRanges` empty
deep-link cells; otherwise the row carries the first valid match's
columns followed by its deep-link cells. -/
def csvRow (resolve : String → String → String) (filePath : String)
    (ms : List FileMatch) (maxRanges : Nat) : List String :=
  match firstValidMatchExport ms with
  | none => [filePath, "no-match", "", "", "Pending", "", ""] ++ List.replicate maxRanges ""
  | some m =>
    [filePath, m.id,
     if m.purl.isEmpty then "" else joinSemicolon m.purl,
     joinSemicolon (m.licenses.map License.name),
     rowStatus m, rowComment m, extractLineRanges m]
      ++ generateMultipleDeeplinks resolve m (extractLineRanges m) maxRanges

/-- The data rows of `performCSVExport` (`export.go`): the dataset-wide
maximum range count is computed once, then one row is written per
scan-result path. -/
def performCSVExportRows (resolve : String → String → String) (scan : ScanResult) :
    List (List String) :=
  scan.files.map (fun pr => csvRow resolve pr.1 pr.2 (getMaxLineRanges scan))

/-- `fillRanges` never changes the width of the slice. -/
theorem fillRanges_length (resolve : String → String → String) (githubPurl file : String)
    (maxRanges : Nat) :
    ∀ (rs : List String) (ds : List String) (i : Nat),
      (fillRanges resolve githubPurl file maxRanges ds i rs).length = ds.length := by
  intro rs
  induction rs with
  | nil => intro ds i; rfl
  | cons r rest ih =>
    intro ds i
    unfold fillRanges
    by_cases hi : maxRanges ≤ i
    · rw [if_pos hi]
    · rw [if_neg hi, ih]
      exact List.length_set ds i _

/-- The deep-link slice always has exactly `maxRanges` cells. -/
theorem generateMultipleDeeplinks_length (resolve : String → String → String)
    (m : FileMatch) (lineRanges : String) (maxRanges : Nat) :
    (generateMultipleDeeplinks resolve m lineRanges maxRanges).length = maxRanges := by
  unfold generateMultipleDeeplinks
  by_cases hp : m.purl.isEmpty
  · rw [if_pos hp]
    exact List.length_replicate maxRanges ""
  · rw [if_neg hp]
    cases firstGithubPurl m.purl with
    | none => exact List.length_replicate maxRanges ""
    | some githubPurl =>
      by_cases hc : m.id = "snippet" && lineRanges ≠ "" && lineRanges ≠ "all"
      · simp only [hc, if_true, fillRanges_length, List.length_replicate]
      · simp only [hc, Bool.false_eq_true, if_false, List.length_set, List.length_replicate]

/-- Every CSV data row has exactly `7 + maxRanges` cells. -/
theorem csvRow_length (resolve : String → String → String) (filePath : String)
    (ms : List FileMatch) (maxRanges : Nat) :
    (csvRow resolve filePath ms maxRanges).length = 7 + maxRanges := by
  unfold csvRow
  cases firstValidMatchExport ms with
  | none => simp; omega
  | some m => simp [generateMultipleDeeplinks_length]; omega

/-- Every CSV data row starts with its file path. -/
theorem csvRow_head (resolve : String → String → String) (filePath : String)
    (ms : List FileMatch) (maxRanges : Nat) :
    (csvRow resolve filePath ms maxRanges).head? = some filePath := by
  unfold csvRow
  cases firstValidMatchExport ms with
  | none => rfl
  | some m => rfl

/-- A fold whose step never decreases the accumulator dominates its
initial value. -/
theorem foldl_ge_init {α : Type} (f : Nat → α → Nat) (hf : ∀ acc x, acc ≤ f acc x) :
    ∀ (l : List α) (acc : Nat), acc ≤ l.foldl f acc := by
  intro l
  induction l with
  | nil => intro acc; exact Nat.le_refl acc
  | cons x rest ih =>
    intro acc
    exact Nat.le_trans (hf acc x) (ih (f acc x))

/-- A fold whose step never decreases the accumulator and guarantees
`v` at some member of the list ends at least at `v`. -/
theorem le_foldl_of_mem {α : Type} (f : Nat → α → Nat) (hf : ∀ acc x, acc ≤ f acc x)
    (v : Nat) (x : α) (hv : ∀ acc, v ≤ f acc x) :
    ∀ (l : List α), x ∈ l → ∀ acc, v ≤ l.foldl f acc := by
  intro l
  induction l with
  | nil => intro hx; cases hx
  | cons y rest ih =>
    intro hx acc
    rw [List.foldl_cons]
    rcases List.mem_cons.mp hx with rfl | hx'
    · exact Nat.le_trans (hv acc) (foldl_ge_init f hf rest (f acc x))
    · exact ih hx' (f acc y)

/-- The step of `getMaxLineRanges`'s inner loop never decreases the
accumulator. -/
theorem getMaxLineRanges_inner_mono (acc : Nat) (m : FileMatch) :
    acc ≤ (if m.id = "snippet" then
        if extractLineRanges m ≠ "" && extractLineRanges m ≠ "all" then
          if (splitChar ',' (extractLineRanges m)).length > acc then
            (splitChar ',' (extractLineRanges m)).length
          else acc
        else acc
      else acc) := by
  by_cases h1 : m.id = "snippet"
  · rw [if_pos h1]
    by_cases h2 : extractLineRanges m ≠ "" && extractLineRanges m ≠ "all"
    · rw [if_pos h2]
      by_cases h3 : (splitChar ',' (extractLineRanges m)).length > acc
      · rw [if_pos h3]
        exact Nat.le_of_lt h3
      · rw [if_neg h3]
    · rw [if_neg h2]
  · rw [if_neg h1]

/-- The dataset-wide maximum range count is at least 1. -/
theorem getMaxLineRanges_pos (scan : ScanResult) : 1 ≤ getMaxLineRanges scan := by
  unfold getMaxLineRanges
  exact foldl_ge_init _
    (fun acc pr => foldl_ge_init _ getMaxLineRanges_inner_mono pr.2 acc)
    scan.files 1

/-- `getMaxLineRanges` bounds the range count of every
snippet-classified match with a concrete range string. -/
theorem getMaxLineRanges_ge (scan : ScanResult) (pr : String × List FileMatch)
    (m : FileMatch) (hpr : pr ∈ scan.files) (hm : m ∈ pr.2)
    (hid : m.id = "snippet") (hne : extractLineRanges m ≠ "")
    (hnall : extractLineRanges m ≠ "all") :
    (splitChar ',' (extractLineRanges m)).length ≤ getMaxLineRanges scan := by
  unfold getMaxLineRanges
  refine le_foldl_of_mem _
    (fun acc pr => foldl_ge_init _ getMaxLineRanges_inner_mono pr.2 acc)
    _ pr ?_ scan.files hpr 1
  intro acc
  refine le_foldl_of_mem _ getMaxLineRanges_inner_mono _ m ?_ pr.2 hm acc
  intro acc'
  have hb : (extractLineRanges m ≠ "" && extractLineRanges m ≠ "all") = true := by
    simp [hne, hnall]
  rw [if_pos hid, if_pos hb]
  by_cases h3 : (splitChar ',' (extractLineRanges m)).length > acc'
  · rw [if_pos h3]
  · rw [if_neg h3]
    exact Nat.le_of_not_lt h3

/-- C3: the CSV export emits exactly one data row per scan-result path
(in order, each row starting with its path, so distinct paths give
distinct rows); a path with no valid first match gets the
`no-match`/`Pending` row; and every data row has exactly
`7 + getMaxLineRanges` cells, where the dataset-wide maximum — at
least 1, computed before any row and bounding every snippet match's
range count — pads shorter rows with empty cells. -/
theorem performCSVExport_shape (resolve : String → String → String) (scan : ScanResult) :
    (performCSVExportRows resolve scan).length = scan.files.length
    ∧ (performCSVExportRows resolve scan).map (fun row => row.head?)
        = scan.files.map (fun pr => some pr.1)
    ∧ ((scan.files.map Prod.fst).Nodup →
        ((performCSVExportRows resolve scan).map (fun row => row.head?)).Nodup)
    ∧ (∀ row ∈ performCSVExportRows resolve scan,
        row.length = 7 + getMaxLineRanges scan)
    ∧ 1 ≤ getMaxLineRanges scan
    ∧ (∀ pr ∈ scan.files, firstValidMatchExport pr.2 = none →
        csvRow resolve pr.1 pr.2 (getMaxLineRanges scan)
          = [pr.1, "no-match", "", "", "Pending", "", ""]
            ++ List.replicate (getMaxLineRanges scan) "")
    ∧ (∀ pr ∈ scan.files, ∀ m ∈ pr.2,
        m.id = "snippet" → extractLineRanges m ≠ "" → extractLineRanges m ≠ "all" →
        (splitChar ',' (extractLineRanges m)).length ≤ getMaxLineRanges scan) := by
  have hmap : (performCSVExportRows resolve scan).map (fun row => row.head?)
      = scan.files.map (fun pr => some pr.1) := by
    unfold performCSVExportRows
    rw [List.map_map]
    exact List.map_congr_left (fun pr _ => csvRow_head resolve pr.1 pr.2 _)
  refine ⟨?_, hmap, ?_, ?_, getMaxLineRanges_pos scan, ?_, ?_⟩
  · unfold performCSVExportRows
    exact List.length_map scan.files _
  · intro hnd
    rw [hmap]
    have h2 : ((scan.files.map Prod.fst).map some).Nodup :=
      hnd.map (Option.some_injective String)
    rw [List.map_map] at h2
    exact h2
  · intro row hrow
    unfold performCSVExportRows at hrow
    rcases List.mem_map.mp hrow with ⟨pr, _, rfl⟩
    exact csvRow_length resolve pr.1 pr.2 _
  · intro pr _ hnone
    unfold csvRow
    rw [hnone]
  · exact fun pr hpr m hm hid hne hnall =>
      getMaxLineRanges_ge scan pr m hpr hm hid hne hnall

/-- A small scan result used as witness data: one snippet match with
two line ranges and a pinned GitHub PURL, plus one path without a
valid match. -/
def scanW : ScanResult :=
  ScanResult.mk
    [("src/x.c", [FileMatch.mk "snippet" "src/x.c" ["pkg:github/scanoss/engine@abc"] []
        (OSSLines.str "10-12,40") []]),
     ("x.c", [])]

/-- Closed witness for `performCSVExport_shape`: the no-match row and
the uniform row width at the concrete scan `scanW`. -/
theorem performCSVExport_shape_witness :
    csvRow (fun _ _ => "master") "x.c" [] (getMaxLineRanges scanW)
        = ["x.c", "no-match", "", "", "Pending", "", ""]
          ++ List.replicate (getMaxLineRanges scanW) ""
      ∧ ∀ row ∈ performCSVExportRows (fun _ _ => "master") scanW,
          row.length = 7 + getMaxLineRanges scanW := by
  refine ⟨?_, (performCSVExport_shape (fun _ _ => "master") scanW).2.2.2.1⟩
  exact (performCSVExport_shape (fun _ _ => "master") scanW).2.2.2.2.2.1 ("x.c", [])
    (by decide) rfl

/-- `(a ++ b).toList` splits into the two character lists. -/
theorem strToList_append (a b : String) : (a ++ b).toList = a.toList ++ b.toList := by
  cases a
  cases b
  rfl

/-- A separator-free character list is returned whole by the split. -/
theorem splitCharList_no_sep (sep : Char) (l : List Char) (h : ∀ c ∈ l, c ≠ sep) :
    splitCharList sep l = [l] := by
  induction l with
  | nil => rfl
  | cons c rest ih =>
    have hc : c ≠ sep := h c (List.mem_cons_self c rest)
    have hrest := ih (fun x hx => h x (List.mem_cons_of_mem c hx))
    simp [splitCharList, hc, hrest]

/-- Splitting at the first separator occurrence after a separator-free
head block. -/
theorem splitCharList_append (sep : Char) (bs : List Char) :
    ∀ as : List Char, (∀ c ∈ as, c ≠ sep) →
      splitCharList sep (as ++ sep :: bs) = as :: splitCharList sep bs := by
  intro as
  induction as with
  | nil => intro _; simp [splitCharList]
  | cons c rest ih =>
    intro h
    have hc : c ≠ sep := h c (List.mem_cons_self c rest)
    have hrest := ih (fun x hx => h x (List.mem_cons_of_mem c hx))
    simp [splitCharList, hc, hrest]

/-- `addLineAnchor` renders an `a-b` range as the `#La-Lb` suffix. -/
theorem addLineAnchor_range (base a b : String)
    (ha : containsChar a '-' = false) (hb : containsChar b '-' = false) :
    addLineAnchor base (a ++ "-" ++ b)
      = base ++ "#L" ++ trimSpace a ++ "-L" ++ trimSpace b := by
  have htl : (a ++ "-" ++ b).toList = a.toList ++ '-' :: b.toList := by
    rw [strToList_append, strToList_append]
    simp
  have ha' : ∀ c ∈ a.toList, c ≠ '-' := by
    intro c hc
    unfold containsChar at ha
    rw [List.any_eq_false] at ha
    simpa using ha c hc
  have hb' : ∀ c ∈ b.toList, c ≠ '-' := by
    intro c hc
    unfold containsChar at hb
    rw [List.any_eq_false] at hb
    simpa using hb c hc
  have hne : (a ++ "-" ++ b) ≠ "" := by
    intro h
    have := congrArg String.toList h
    rw [htl] at this
    simp at this
  have hcont : containsChar (a ++ "-" ++ b) '-' = true := by
    unfold containsChar
    rw [htl]
    simp
  have hsplit : splitChar '-' (a ++ "-" ++ b) = [a, b] := by
    unfold splitChar
    rw [htl, splitCharList_append '-' b.toList a.toList ha',
      splitCharList_no_sep '-' b.toList hb']
    rfl
  unfold addLineAnchor
  rw [if_pos hne, hcont]
  simp only [if_true]
  rw [hsplit]

/-- `addLineAnchor` renders a single line `n` as the `#Ln` suffix. -/
theorem addLineAnchor_single (base n : String) (hn : n ≠ "")
    (h : containsChar n '-' = false) :
    addLineAnchor base n = base ++ "#L" ++ n := by
  unfold addLineAnchor
  rw [if_pos hn, h]
  simp

/-- An empty line range leaves the base URL without anchor. -/
theorem addLineAnchor_none (base : String) : addLineAnchor base "" = base := by
  simp [addLineAnchor]

/-- `generateGitHubDeeplinkWithRange` on a PURL matched by the
pinned-revision pattern. -/
theorem deeplink_pinned (resolve : String → String → String)
    (purl filePath lineRange owner repo commit : String)
    (h : searchCommit purl.toList = some (owner, repo, commit)) :
    generateGitHubDeeplinkWithRange resolve purl filePath lineRange
      = addLineAnchor (githubBaseURL owner repo commit filePath) lineRange := by
  unfold generateGitHubDeeplinkWithRange
  rw [h]

/-- `generateGitHubDeeplinkWithRange` on a PURL matched only by the
unpinned pattern: the revision comes from the default-branch lookup. -/
theorem deeplink_unpinned (resolve : String → String → String)
    (purl filePath lineRange owner repo : String)
    (hc : searchCommit purl.toList = none)
    (h : searchNoCommit purl.toList = some (owner, repo)) :
    generateGitHubDeeplinkWithRange resolve purl filePath lineRange
      = addLineAnchor (githubBaseURL owner repo (resolve owner repo) filePath) lineRange := by
  unfold generateGitHubDeeplinkWithRange
  rw [hc, h]

/-- The range loop writes one deep link per range, in order, into the
pre-sized slice. -/
theorem fillRanges_eq (resolve : String → String → String) (githubPurl file : String)
    (maxRanges : Nat) :
    ∀ (rs : List String) (ds : List String) (i : Nat),
      ds.length = maxRanges → i + rs.length ≤ maxRanges →
      fillRanges resolve githubPurl file maxRanges ds i rs
        = ds.take i
          ++ rs.map (fun r =>
              generateGitHubDeeplinkWithRange resolve githubPurl file (trimSpace r))
          ++ ds.drop (i + rs.length) := by
  intro rs
  induction rs with
  | nil =>
    intro ds i _ _
    simp [fillRanges]
  | cons r rest ih =>
    intro ds i hlen hle
    have hi : i < maxRanges := by
      simp only [List.length_cons] at hle
      omega
    have hilen : i < ds.length := hlen ▸ hi
    have hlentake : (ds.take i).length = i := by
      rw [List.length_take]
      omega
    have hTake : (ds.take i
          ++ generateGitHubDeeplinkWithRange resolve githubPurl file (trimSpace r)
            :: ds.drop (i + 1)).take (i + 1)
        = ds.take i
          ++ [generateGitHubDeeplinkWithRange resolve githubPurl file (trimSpace r)] := by
      rw [List.take_append_eq_append_take, List.take_of_length_le (by omega), hlentake]
      have h1 : i + 1 - i = 1 := by omega
      rw [h1]
      rfl
    have hDrop : (ds.take i
          ++ generateGitHubDeeplinkWithRange resolve githubPurl file (trimSpace r)
            :: ds.drop (i + 1)).drop (i + 1 + rest.length)
        = ds.drop (i + 1 + rest.length) := by
      rw [List.drop_append_eq_append_drop, List.drop_of_length_le (by omega), hlentake]
      have h2 : i + 1 + rest.length - i = rest.length + 1 := by omega
      rw [h2, List.nil_append, List.drop_succ_cons, List.drop_drop]
    unfold fillRanges
    rw [if_neg (Nat.not_le_of_lt hi)]
    rw [ih _ (i + 1) (by rw [List.length_set]; exact hlen)
      (by simp only [List.length_cons] at hle; omega)]
    rw [List.set_eq_take_cons_drop _ hilen, hTake, hDrop]
    have h3 : i + (r :: rest).length = i + 1 + rest.length := by
      simp only [List.length_cons]
      omega
    rw [h3]
    simp [List.append_assoc]

/-- A PURL found in the list means the list is non-empty. -/
theorem firstGithubPurl_isEmpty (ps : List String) (p : String)
    (h : firstGithubPurl ps = some p) : ps.isEmpty = false := by
  cases ps with
  | nil => exact absurd h (by simp [firstGithubPurl])
  | cons q rest => rfl

/-- `generateMultipleDeeplinks` on a snippet match with concrete
ranges: one deep link per range in order, padded to `maxRanges` with
empty cells. -/
theorem generateMultipleDeeplinks_snippet (resolve : String → String → String)
    (m : FileMatch) (p lineRanges : String) (maxRanges : Nat)
    (hp : firstGithubPurl m.purl = some p)
    (hid : m.id = "snippet") (hne : lineRanges ≠ "") (hnall : lineRanges ≠ "all")
    (hcount : (splitChar ',' lineRanges).length ≤ maxRanges) :
    generateMultipleDeeplinks resolve m lineRanges maxRanges
      = (splitChar ',' lineRanges).map (fun r =>
          generateGitHubDeeplinkWithRange resolve p m.file (trimSpace r))
        ++ List.replicate (maxRanges - (splitChar ',' lineRanges).length) "" := by
  unfold generateMultipleDeeplinks
  rw [firstGithubPurl_isEmpty m.purl p hp]
  simp only [Bool.false_eq_true, if_false]
  rw [hp]
  have hcond : (m.id = "snippet" && lineRanges ≠ "" && lineRanges ≠ "all") = true := by
    simp [hid, hne, hnall]
  show (if m.id = "snippet" && lineRanges ≠ "" && lineRanges ≠ "all" then
      fillRanges resolve p m.file maxRanges (List.replicate maxRanges "") 0
        (splitChar ',' lineRanges)
    else (List.replicate maxRanges "").set 0
      (generateGitHubDeeplinkWithRange resolve p m.file "")) = _
  rw [hcond]
  simp only [if_true]
  rw [fillRanges_eq resolve p m.file maxRanges (splitChar ',' lineRanges)
    (List.replicate maxRanges "") 0 (List.length_replicate maxRanges "")
    (by simpa using hcount)]
  simp [List.drop_replicate]

/-- `generateMultipleDeeplinks` on a file match or a snippet without
concrete ranges: a single anchor-free deep link in the first cell. -/
theorem generateMultipleDeeplinks_single (resolve : String → String → String)
    (m : FileMatch) (p lineRanges : String) (maxRanges : Nat)
    (hp : firstGithubPurl m.purl = some p)
    (hc : (m.id = "snippet" && lineRanges ≠ "" && lineRanges ≠ "all") = false)
    (hmr : 1 ≤ maxRanges) :
    generateMultipleDeeplinks resolve m lineRanges maxRanges
      = generateGitHubDeeplinkWithRange resolve p m.file ""
        :: List.replicate (maxRanges - 1) "" := by
  unfold generateMultipleDeeplinks
  rw [firstGithubPurl_isEmpty m.purl p hp]
  simp only [Bool.false_eq_true, if_false]
  rw [hp]
  show (if m.id = "snippet" && lineRanges ≠ "" && lineRanges ≠ "all" then
      fillRanges resolve p m.file maxRanges (List.replicate maxRanges "") 0
        (splitChar ',' lineRanges)
    else (List.replicate maxRanges "").set 0
      (generateGitHubDeeplinkWithRange resolve p m.file "")) = _
  rw [hc]
  simp only [Bool.false_eq_true, if_false]
  cases maxRanges with
  | zero => omega
  | succ k => simp [List.replicate_succ]

/-- C6: for a snippet match with a GitHub PURL and a concrete
comma-separated range string the exporter emits one deep link per
range, in order — an `a-b` range rendered as the base URL plus
`#La-Lb` and a single line `n` as the base URL plus `#Ln` — while a
file match, or a snippet without concrete ranges, produces exactly one
deep link without line anchor, in the first deep-link cell. -/
theorem deeplink_per_range (resolve : String → String → String) (m : FileMatch)
    (p : String) (maxRanges : Nat) :
    (m.id = "snippet" → extractLineRanges m ≠ "" → extractLineRanges m ≠ "all" →
      firstGithubPurl m.purl = some p →
      (splitChar ',' (extractLineRanges m)).length ≤ maxRanges →
      generateMultipleDeeplinks resolve m (extractLineRanges m) maxRanges
        = (splitChar ',' (extractLineRanges m)).map (fun r =>
            generateGitHubDeeplinkWithRange resolve p m.file (trimSpace r))
          ++ List.replicate (maxRanges - (splitChar ',' (extractLineRanges m)).length) "")
    ∧ (∀ owner repo commit a b, searchCommit p.toList = some (owner, repo, commit) →
        containsChar a '-' = false → containsChar b '-' = false →
        generateGitHubDeeplinkWithRange resolve p m.file (a ++ "-" ++ b)
          = githubBaseURL owner repo commit m.file
            ++ "#L" ++ trimSpace a ++ "-L" ++ trimSpace b)
    ∧ (∀ owner repo commit n, searchCommit p.toList = some (owner, repo, commit) →
        n ≠ "" → containsChar n '-' = false →
        generateGitHubDeeplinkWithRange resolve p m.file n
          = githubBaseURL owner repo commit m.file ++ "#L" ++ n)
    ∧ (∀ owner repo commit, searchCommit p.toList = some (owner, repo, commit) →
        generateGitHubDeeplinkWithRange resolve p m.file ""
          = githubBaseURL owner repo commit m.file)
    ∧ (∀ owner repo, searchCommit p.toList = none →
        searchNoCommit p.toList = some (owner, repo) →
        generateGitHubDeeplinkWithRange resolve p m.file ""
          = githubBaseURL owner repo (resolve owner repo) m.file)
    ∧ (¬(m.id = "snippet" ∧ extractLineRanges m ≠ "" ∧ extractLineRanges m ≠ "all") →
        firstGithubPurl m.purl = some p → 1 ≤ maxRanges →
        generateMultipleDeeplinks resolve m (extractLineRanges m) maxRanges
          = generateGitHubDeeplinkWithRange resolve p m.file ""
            :: List.replicate (maxRanges - 1) "") := by
  refine ⟨?_, ?_, ?_, ?_, ?_, ?_⟩
  · intro hid hne hnall hp hcount
    exact generateMultipleDeeplinks_snippet resolve m p _ maxRanges hp hid hne hnall hcount
  · intro owner repo commit a b h ha hb
    rw [deeplink_pinned resolve p m.file _ owner repo commit h]
    exact addLineAnchor_range _ a b ha hb
  · intro owner repo commit n h hn hnd
    rw [deeplink_pinned resolve p m.file _ owner repo commit h]
    exact addLineAnchor_single _ n hn hnd
  · intro owner repo commit h
    rw [deeplink_pinned resolve p m.file _ owner repo commit h]
    exact addLineAnchor_none _
  · intro owner repo hc h
    rw [deeplink_unpinned resolve p m.file _ owner repo hc h]
    exact addLineAnchor_none _
  · intro hnc hp hmr
    have hc : (m.id = "snippet" && extractLineRanges m ≠ ""
        && extractLineRanges m ≠ "all") = false := by
      rw [Bool.eq_false_iff]
      intro hcontra
      simp only [Bool.and_eq_true, decide_eq_true_eq] at hcontra
      exact hnc ⟨hcontra.1.1, hcontra.1.2, hcontra.2⟩
    exact generateMultipleDeeplinks_single resolve m p _ maxRanges hp hc hmr

/-- Closed witness for `deeplink_per_range`: the snippet match of
`scanW` with ranges `"10-12,40"` and a pinned GitHub PURL yields the
two anchored deep links of the spec's scenario. -/
theorem deeplink_per_range_witness :
    generateMultipleDeeplinks (fun _ _ => "master")
        (FileMatch.mk "snippet" "src/x.c" ["pkg:github/scanoss/engine@abc"] []
          (OSSLines.str "10-12,40") []) "10-12,40" 2
      = ["https://github.com/scanoss/engine/blob/abc/src/x.c#L10-L12",
         "https://github.com/scanoss/engine/blob/abc/src/x.c#L40"] := by
  have h := (deeplink_per_range (fun _ _ => "master")
    (FileMatch.mk "snippet" "src/x.c" ["pkg:github/scanoss/engine@abc"] []
      (OSSLines.str "10-12,40") []) "pkg:github/scanoss/engine@abc" 2).1
    rfl (by decide) (by decide) (by decide) (by decide)
  rw [show extractLineRanges (FileMatch.mk "snippet" "src/x.c"
      ["pkg:github/scanoss/engine@abc"] [] (OSSLines.str "10-12,40") [])
    = "10-12,40" from rfl] at h
  rw [h]
  decide
